import Mathlib

/-
Verification of the transaction-lifecycle tracker (src/unnamed/part_000,
the `sungwon` event handler) against its natural-language specification.

The TypeScript source is shallowly embedded below:
  * `txMap : Map<string, string[]>`  becomes an insertion-ordered
    association list `List (String × List String)`;
  * `parentMap : Map<string, string>` becomes `List (String × String)`;
  * `lastFinalized : string` (initially `""`) is a `String` field;
  * the chain-data provider `api` (getBody / isTxValid / isTxSuccessful)
    is a structure of pure functions;
  * calls to `outputApi.onTxSettled` / `outputApi.onTxDone` (and, had the
    source made any, `api.unpin`) are accumulated in an output trace;
  * the `while` loop in `isDescendant` and the recursion in `onFinalized`
    can diverge in JavaScript when the recorded parent links are cyclic;
    they are embedded with explicit fuel, and a finalized event whose
    parent walk would diverge yields `none`.  For acyclic parent maps the
    chosen fuel (`parentMap.length` resp. `parentMap.length + 1`) is
    sufficient, so on terminating JavaScript runs the embedding returns
    `some` of exactly the JavaScript result.
-/

namespace TxTracker

/-- Classification attached to a notification, mirroring the literal
objects `{blockHash, type: "invalid"}` and
`{blockHash, type: "valid", successful: b}` built in the source. -/
inductive SettledKind where
  | invalid : SettledKind
  | valid : Bool → SettledKind
deriving DecidableEq, Repr

/-- The payload of an output notification. -/
structure Settled where
  blockHash : String
  kind : SettledKind
deriving DecidableEq, Repr

/-- One observable output call of the tracker.  The source only ever
emits `onTxSettled` and `onTxDone`; the `unpin` constructor exists so
that claims about `api.unpin` can be stated (the source never calls it). -/
inductive OutCall where
  | onTxSettled : String → Settled → OutCall
  | onTxDone : String → Settled → OutCall
  | unpin : String → OutCall
deriving DecidableEq, Repr

/-- The chain-data provider consumed by the tracker, as pure functions. -/
structure API where
  getBody : String → List String
  isTxValid : String → String → Bool
  isTxSuccessful : String → String → Bool

/-- One incoming event, mirroring `IncomingEvent`. -/
inductive Event where
  | newBlock : String → String → Event
  | newTransaction : String → Event
  | finalized : String → Event
deriving DecidableEq, Repr

/-- The tracker's mutable state: `txMap`, `parentMap`, `lastFinalized`. -/
structure TrackerState where
  txMap : List (String × List String)
  parentMap : List (String × String)
  lastFinalized : String
deriving DecidableEq, Repr

/-- Association-list lookup, modelling `Map.get` (with `Map.has` as
`Option.isSome` of the result). -/
def lookupStr {α : Type} : List (String × α) → String → Option α
  | [], _ => none
  | (k, v) :: rest, key => if k = key then some v else lookupStr rest key

/-- Association-list update, modelling `Map.set`: overwrites the value of
an existing key in place (keeping its insertion position), appends
otherwise. -/
def setStr {α : Type} : List (String × α) → String → α → List (String × α)
  | [], k, v => [(k, v)]
  | (k0, v0) :: rest, k, v =>
    if k0 = k then (k0, v) :: rest else (k0, v0) :: setStr rest k v

/-- The `while` loop of `isDescendant`, with explicit fuel.  Mirrors:
`while (parentMap.has(cur) && parentMap.get(cur) != lastFinalized)
\x7b cur = parentMap.get(cur); if (cur == old) return true \x7d return false`. -/
def isDescendantF (pm : List (String × String)) (lf : String) :
    Nat → String → String → Bool
  | 0, _, _ => false
  | fuel + 1, cur, old =>
    match lookupStr pm cur with
    | some p =>
      if p = lf then false
      else if p = old then true
      else isDescendantF pm lf fuel p old
    | none => false

/-- Source function `isDescendant(curBlock, oldBlock)`.  Fuel
`pm.length` is exhaustive for every terminating walk: each loop
iteration steps to the stored parent of a distinct key of `pm`, so a
walk that revisits no key takes at most `pm.length` iterations, and a
walk that revisits a key never terminates in the source. -/
def isDescendant (pm : List (String × String)) (lf : String)
    (cur old : String) : Bool :=
  isDescendantF pm lf pm.length cur old

/-- The classification performed by `onNewBlock` before emitting
`onTxSettled`: `isTxValid`, then (if valid) `isTxSuccessful`. -/
def classifyCall (api : API) (blockHash tx : String) : OutCall :=
  if api.isTxValid blockHash tx then
    OutCall.onTxSettled tx ⟨blockHash, SettledKind.valid (api.isTxSuccessful blockHash tx)⟩
  else
    OutCall.onTxSettled tx ⟨blockHash, SettledKind.invalid⟩

/-- The `txMap.forEach` body of `onNewBlock`, folded over the map in
insertion order.  For each tracked transaction contained in the block
body: if its settlement list is non-empty, push `blockHash` once for
every existing entry of which `blockHash` is not a descendant
(`Array.forEach` does not visit elements appended during the
iteration, so only the original entries are tested); then emit one
classified `onTxSettled`.  Returns the updated `txMap` and the emitted
calls, in iteration order. -/
def settleScan (api : API) (pm : List (String × String)) (lf : String)
    (blockHash : String) (blockTxs : List String) :
    List (String × List String) → List (String × List String) × List OutCall
  | [] => ([], [])
  | (tx, status) :: rest =>
    let tail := settleScan api pm lf blockHash blockTxs rest
    if tx ∈ blockTxs then
      let status' :=
        if status ≠ [] then
          status ++ (status.filter fun h => ! isDescendant pm lf blockHash h).map
            fun _ => blockHash
        else status
      ((tx, status') :: tail.1, classifyCall api blockHash tx :: tail.2)
    else
      ((tx, status) :: tail.1, tail.2)

/-- Source function `onNewBlock`: record the parent edge, fetch the
body, then scan the transaction map in insertion order. -/
def onNewBlock (api : API) (st : TrackerState) (blockHash parent : String) :
    TrackerState × List OutCall :=
  let pm := setStr st.parentMap blockHash parent
  let blockTxs := api.getBody blockHash
  let scan := settleScan api pm st.lastFinalized blockHash blockTxs st.txMap
  ({ st with parentMap := pm, txMap := scan.1 }, scan.2)

/-- Source function `onNewTx`: register an unseen transaction with an
empty settlement list; re-registration is a no-op. -/
def onNewTx (st : TrackerState) (tx : String) : TrackerState :=
  if (lookupStr st.txMap tx).isSome then st
  else { st with txMap := st.txMap ++ [(tx, [])] }

/-- The `txMap.forEach` body of `onFinalized`: for each tracked
transaction that appears in the finalized block's body and has a
non-empty settlement list, emit `onTxDone` with `type: "valid"` and the
provider's success flag.  (The source never checks `isTxValid` here.) -/
def doneEmits (api : API) (blockHash : String) (blockTxs : List String)
    (txMap : List (String × List String)) : List OutCall :=
  txMap.filterMap fun e =>
    if e.1 ∈ blockTxs then
      if e.2 ≠ [] then
        some (OutCall.onTxDone e.1
          ⟨blockHash, SettledKind.valid (api.isTxSuccessful blockHash e.1)⟩)
      else none
    else none

/-- The tail of one `onFinalized` frame, applied after the recursive
ancestor call returns: emit this block's done-notifications over the
current `txMap` and advance `lastFinalized` to this block. -/
def finalizeStep (api : API) (st1 : TrackerState) (tr1 : List OutCall)
    (blockHash : String) : TrackerState × List OutCall :=
  ({ st1 with lastFinalized := blockHash },
   tr1 ++ doneEmits api blockHash (api.getBody blockHash) st1.txMap)

/-- Source function `onFinalized`, with explicit fuel for the recursive
self-call `onFinalized(parent)`, which the source performs whenever the
recorded parent exists, is truthy (non-empty), and differs from
`lastFinalized`.  `none` models the divergence the source exhibits on a
cyclic parent chain. -/
def onFinalizedF (api : API) : Nat → TrackerState → String →
    Option (TrackerState × List OutCall)
  | 0, _, _ => none
  | fuel + 1, st, blockHash =>
    match lookupStr st.parentMap blockHash with
    | some p =>
      if p ≠ "" ∧ p ≠ st.lastFinalized then
        (onFinalizedF api fuel st p).map fun r => finalizeStep api r.1 r.2 blockHash
      else some (finalizeStep api st [] blockHash)
    | none => some (finalizeStep api st [] blockHash)

/-- Dispatch of one incoming event (the returned closure in the source).
For a finalized event the fuel `parentMap.length + 1` covers every
terminating parent walk (the walk visits pairwise-distinct keys of
`parentMap`, else the source diverges). -/
def processEvent (api : API) (st : TrackerState) :
    Event → Option (TrackerState × List OutCall)
  | Event.newBlock b p => some (onNewBlock api st b p)
  | Event.newTransaction v => some (onNewTx st v, [])
  | Event.finalized b => onFinalizedF api (st.parentMap.length + 1) st b

/-- Run a list of events from a given state, concatenating the emitted
output calls. -/
def processEventsFrom (api : API) :
    TrackerState → List Event → Option (TrackerState × List OutCall)
  | st, [] => some (st, [])
  | st, e :: rest =>
    match processEvent api st e with
    | none => none
    | some (st1, tr1) =>
      match processEventsFrom api st1 rest with
      | none => none
      | some (st2, tr2) => some (st2, tr1 ++ tr2)

/-- The initial state: empty maps and `lastFinalized = ""`. -/
def initState : TrackerState := ⟨[], [], ""⟩

/-- Run a list of events from the initial state. -/
def processEvents (api : API) (evs : List Event) :
    Option (TrackerState × List OutCall) :=
  processEventsFrom api initState evs

/-- The transaction names carried by the notification calls of a trace,
in emission order (`unpin` carries none). -/
def notifiedTxs (tr : List OutCall) : List String :=
  tr.filterMap fun c =>
    match c with
    | OutCall.onTxSettled tx _ => some tx
    | OutCall.onTxDone tx _ => some tx
    | OutCall.unpin _ => none

/-- First-arrival order of transaction values over an event list:
the order in which distinct `newTransaction` values first appear. -/
def arrivalOrderAux : List String → List Event → List String
  | acc, [] => acc
  | acc, e :: rest =>
    match e with
    | Event.newTransaction v =>
      arrivalOrderAux (if v ∈ acc then acc else acc ++ [v]) rest
    | _ => arrivalOrderAux acc rest

/-- First-arrival order of transaction values of an event history. -/
def arrivalOrder (evs : List Event) : List String := arrivalOrderAux [] evs

/-- The chain of recorded ancestors of a block: its parent, the parent's
parent, and so on, as far as `parentMap` records them (observer used to
state ancestry facts in counterexamples). -/
def parentChainAux (pm : List (String × String)) : Nat → String → List String
  | 0, _ => []
  | fuel + 1, b =>
    match lookupStr pm b with
    | some p => p :: parentChainAux pm fuel p
    | none => []

/-- The recorded ancestor chain of a block, oldest last. -/
def parentChain (pm : List (String × String)) (b : String) : List String :=
  parentChainAux pm pm.length b

/-- All settlement lists of the transaction map are empty. -/
def txMapAllNil (st : TrackerState) : Prop :=
  ∀ p ∈ st.txMap, p.2 = ([] : List String)

/-- A done-notification is well-classified when it carries
`type: "valid"` and names a (block, transaction) pair the provider
reports valid; non-done calls are unconstrained. -/
def doneCallOk (api : API) : OutCall → Bool
  | OutCall.onTxDone tx s =>
    (match s.kind with
     | SettledKind.valid _ => true
     | SettledKind.invalid => false) && api.isTxValid s.blockHash tx
  | _ => true

/-- Concrete provider for counterexamples: every block body is `["t"]`,
every transaction valid and successful. -/
def apiAllT : API := ⟨fun _ => ["t"], fun _ _ => true, fun _ _ => true⟩

/-- Concrete provider for counterexamples: every block body is empty. -/
def apiEmpty : API := ⟨fun _ => [], fun _ _ => true, fun _ _ => true⟩

/-- Concrete state used to exercise the finality-replay theorem: one
tracked transaction with a (hypothetical) settlement, a three-block
unfinalized chain f1 → f2 → f3 above the cursor "g". -/
def stReplay : TrackerState :=
  ⟨[("t", ["x"])], [("f3", "f2"), ("f2", "f1"), ("f1", "g")], "g"⟩

/-! Basic lemmas about the association-list operations. -/

theorem lookupStr_isSome {α : Type} (l : List (String × α)) (k : String) :
    (lookupStr l k).isSome = true ↔ k ∈ l.map Prod.fst := by
  induction l with
  | nil => simp [lookupStr]
  | cons p rest ih =>
    obtain ⟨k0, v0⟩ := p
    by_cases hk : k0 = k
    · subst hk
      simp [lookupStr]
    · simp [lookupStr, hk, ih]
      intro h
      exact absurd h.symm hk

theorem two_le_length_of_mem_ne {α : Type} {a b : α} {l : List α}
    (ha : a ∈ l) (hb : b ∈ l) (hab : a ≠ b) : 2 ≤ l.length := by
  cases l with
  | nil => simp at ha
  | cons x xs =>
    cases xs with
    | nil =>
      simp at ha hb
      exact absurd (ha.trans hb.symm) hab
    | cons y ys => simp

/-! Unfolding and structural lemmas for `onFinalizedF`. -/

theorem onFinalizedF_succ (api : API) (fuel : Nat) (st : TrackerState)
    (blockHash : String) :
    onFinalizedF api (fuel + 1) st blockHash =
      match lookupStr st.parentMap blockHash with
      | some p =>
        if p ≠ "" ∧ p ≠ st.lastFinalized then
          (onFinalizedF api fuel st p).map fun r => finalizeStep api r.1 r.2 blockHash
        else some (finalizeStep api st [] blockHash)
      | none => some (finalizeStep api st [] blockHash) := rfl

/-- When the recursion guard fails (no recorded parent, or parent falsy
or equal to the cursor), one `onFinalized` frame just emits its own
done-notifications and advances the cursor. -/
theorem onFinalized_stop_none (api : API) (fuel : Nat) (st : TrackerState)
    (b : String) (hp : lookupStr st.parentMap b = none) :
    onFinalizedF api (fuel + 1) st b =
      some ({ st with lastFinalized := b },
        doneEmits api b (api.getBody b) st.txMap) := by
  rw [onFinalizedF_succ, hp]
  simp [finalizeStep]

theorem onFinalized_stop (api : API) (fuel : Nat) (st : TrackerState)
    (b p : String) (hp : lookupStr st.parentMap b = some p)
    (hc : ¬(p ≠ "" ∧ p ≠ st.lastFinalized)) :
    onFinalizedF api (fuel + 1) st b =
      some ({ st with lastFinalized := b },
        doneEmits api b (api.getBody b) st.txMap) := by
  rw [onFinalizedF_succ, hp]
  simp [finalizeStep, hc]

theorem onFinalized_go (api : API) (fuel : Nat) (st : TrackerState)
    (b p : String) (hp : lookupStr st.parentMap b = some p)
    (h1 : p ≠ "") (h2 : p ≠ st.lastFinalized) :
    onFinalizedF api (fuel + 1) st b =
      (onFinalizedF api fuel st p).map fun r => finalizeStep api r.1 r.2 b := by
  rw [onFinalizedF_succ, hp]
  simp [h1, h2]

/-- Function `onFinalized` never touches `txMap` or `parentMap`, and leaves
`lastFinalized` at the finalized block hash. -/
theorem onFinalizedF_state (api : API) :
    ∀ (fuel : Nat) (st : TrackerState) (b : String) (st' : TrackerState)
      (tr : List OutCall), onFinalizedF api fuel st b = some (st', tr) →
      st'.txMap = st.txMap ∧ st'.parentMap = st.parentMap ∧
        st'.lastFinalized = b := by
  intro fuel
  induction fuel with
  | zero => intro st b st' tr h; exact absurd h (by simp [onFinalizedF])
  | succ fuel ih =>
    intro st b st' tr h
    cases hp : lookupStr st.parentMap b with
    | none =>
      rw [onFinalized_stop_none api fuel st b hp] at h
      simp [finalizeStep] at h
      obtain ⟨h1, h2⟩ := h
      subst h1
      simp
    | some p =>
      by_cases hc : p ≠ "" ∧ p ≠ st.lastFinalized
      · rw [onFinalized_go api fuel st b p hp hc.1 hc.2] at h
        cases hrec : onFinalizedF api fuel st p with
        | none => rw [hrec] at h; simp at h
        | some r =>
          rw [hrec] at h
          simp [finalizeStep] at h
          obtain ⟨h1, h2⟩ := h
          obtain ⟨hA, hB, hC⟩ := ih st p r.1 r.2 (by rw [hrec])
          subst h1
          simp [hA, hB]
      · rw [onFinalized_stop api fuel st b p hp hc] at h
        simp at h
        obtain ⟨h1, h2⟩ := h
        subst h1
        simp

/-- With every settlement list empty, a finalized block emits nothing. -/
theorem doneEmits_nil (api : API) (b : String) (body : List String)
    (l : List (String × List String)) (h : ∀ p ∈ l, p.2 = ([] : List String)) :
    doneEmits api b body l = [] := by
  induction l with
  | nil => rfl
  | cons p rest ih =>
    have hp := h p (by simp)
    have hrest : ∀ q ∈ rest, q.2 = ([] : List String) := fun q hq => h q (by simp [hq])
    have htail := ih hrest
    obtain ⟨tx, status⟩ := p
    simp only at hp
    subst hp
    simp only [doneEmits, List.filterMap_cons] at htail ⊢
    simp only [ne_eq, not_true_eq_false, if_false, ite_self]
    exact htail

/-- With every settlement list empty, `onFinalized` emits no calls. -/
theorem onFinalizedF_trace_nil (api : API) :
    ∀ (fuel : Nat) (st : TrackerState) (b : String) (st' : TrackerState)
      (tr : List OutCall), txMapAllNil st →
      onFinalizedF api fuel st b = some (st', tr) → tr = [] := by
  intro fuel
  induction fuel with
  | zero => intro st b st' tr _ h; exact absurd h (by simp [onFinalizedF])
  | succ fuel ih =>
    intro st b st' tr hnil h
    cases hp : lookupStr st.parentMap b with
    | none =>
      rw [onFinalized_stop_none api fuel st b hp] at h
      rw [doneEmits_nil api b _ _ hnil] at h
      simp at h
      exact h.2
    | some p =>
      by_cases hc : p ≠ "" ∧ p ≠ st.lastFinalized
      · rw [onFinalized_go api fuel st b p hp hc.1 hc.2] at h
        cases hrec : onFinalizedF api fuel st p with
        | none => rw [hrec] at h; simp at h
        | some r =>
          rw [hrec] at h
          simp [finalizeStep] at h
          have htr : r.2 = [] := ih st p r.1 r.2 hnil (by rw [hrec])
          have htx : r.1.txMap = st.txMap :=
            (onFinalizedF_state api fuel st p r.1 r.2 (by rw [hrec])).1
          rw [htr, htx, doneEmits_nil api b _ _ hnil] at h
          simpa using h.2.symm
      · rw [onFinalized_stop api fuel st b p hp hc] at h
        rw [doneEmits_nil api b _ _ hnil] at h
        simp at h
        exact h.2

/-! Structural lemmas for `settleScan` (the `onNewBlock` scan). -/

theorem classifyCall_shape (api : API) (bh tx : String) :
    ∃ s, classifyCall api bh tx = OutCall.onTxSettled tx s := by
  unfold classifyCall
  split
  · exact ⟨_, rfl⟩
  · exact ⟨_, rfl⟩

/-- The scan never adds or removes transactions, nor reorders them. -/
theorem settleScan_keys (api : API) (pm : List (String × String)) (lf : String)
    (bh : String) (body : List String) (l : List (String × List String)) :
    (settleScan api pm lf bh body l).1.map Prod.fst = l.map Prod.fst := by
  induction l with
  | nil => rfl
  | cons p rest ih =>
    obtain ⟨tx, status⟩ := p
    by_cases hmem : tx ∈ body
    · simp [settleScan, hmem, ih]
    · simp [settleScan, hmem, ih]

/-- A transaction whose settlement list is empty keeps it empty: the
source only pushes to a non-empty list. -/
theorem settleScan_allNil (api : API) (pm : List (String × String)) (lf : String)
    (bh : String) (body : List String) (l : List (String × List String))
    (h : ∀ p ∈ l, p.2 = ([] : List String)) :
    ∀ p ∈ (settleScan api pm lf bh body l).1, p.2 = ([] : List String) := by
  induction l with
  | nil => intro p hp; simp [settleScan] at hp
  | cons q rest ih =>
    obtain ⟨tx, status⟩ := q
    have hq : status = [] := h (tx, status) (by simp)
    have hrest : ∀ p ∈ rest, p.2 = ([] : List String) :=
      fun p hp => h p (by simp [hp])
    subst hq
    intro p hp
    by_cases hmem : tx ∈ body
    · simp [settleScan, hmem] at hp
      rcases hp with hp | hp
      · simp [hp]
      · exact ih hrest p hp
    · simp [settleScan, hmem] at hp
      rcases hp with hp | hp
      · simp [hp]
      · exact ih hrest p hp

/-- Every call emitted by the scan is an `onTxSettled` for a transaction
of the scanned map. -/
theorem settleScan_calls (api : API) (pm : List (String × String)) (lf : String)
    (bh : String) (body : List String) (l : List (String × List String)) :
    ∀ c ∈ (settleScan api pm lf bh body l).2,
      ∃ tx s, c = OutCall.onTxSettled tx s ∧ tx ∈ l.map Prod.fst := by
  induction l with
  | nil => intro c hc; simp [settleScan] at hc
  | cons q rest ih =>
    obtain ⟨tx, status⟩ := q
    intro c hc
    by_cases hmem : tx ∈ body
    · simp [settleScan, hmem] at hc
      rcases hc with hc | hc
      · obtain ⟨s, hs⟩ := classifyCall_shape api bh tx
        exact ⟨tx, s, by rw [hc, hs], by simp⟩
      · obtain ⟨tx', s, hcs, htx⟩ := ih c hc
        exact ⟨tx', s, hcs, by simp [htx]⟩
    · simp [settleScan, hmem] at hc
      obtain ⟨tx', s, hcs, htx⟩ := ih c hc
      exact ⟨tx', s, hcs, by simp [htx]⟩

/-- The transactions notified by one scan, in emission order, form a
sublist of the scanned map's insertion order. -/
theorem settleScan_notified (api : API) (pm : List (String × String)) (lf : String)
    (bh : String) (body : List String) (l : List (String × List String)) :
    List.Sublist (notifiedTxs (settleScan api pm lf bh body l).2)
      (l.map Prod.fst) := by
  induction l with
  | nil => simp [settleScan, notifiedTxs]
  | cons q rest ih =>
    obtain ⟨tx, status⟩ := q
    by_cases hmem : tx ∈ body
    · obtain ⟨s, hs⟩ := classifyCall_shape api bh tx
      simp only [settleScan, if_pos hmem, List.map_cons]
      rw [show notifiedTxs (classifyCall api bh tx ::
            (settleScan api pm lf bh body rest).2) =
          tx :: notifiedTxs (settleScan api pm lf bh body rest).2 by
        simp [notifiedTxs, hs]]
      exact List.Sublist.cons₂ tx ih
    · simp only [settleScan, if_neg hmem, List.map_cons]
      exact List.Sublist.cons tx ih

/-! Run-level invariants. -/

/-- Accumulator membership is preserved by the arrival-order fold. -/
theorem mem_arrivalOrderAux (x : String) :
    ∀ (evs : List Event) (acc : List String), x ∈ acc →
      x ∈ arrivalOrderAux acc evs := by
  intro evs
  induction evs with
  | nil => intro acc h; simpa [arrivalOrderAux] using h
  | cons e rest ih =>
    intro acc h
    cases e with
    | newBlock b p => simpa [arrivalOrderAux] using ih acc h
    | finalized b => simpa [arrivalOrderAux] using ih acc h
    | newTransaction v =>
      simp only [arrivalOrderAux]
      by_cases hv : v ∈ acc
      · simpa [hv] using ih acc h
      · rw [if_neg hv]
        exact ih (acc ++ [v]) (by simp [h])

/-- One processed event: the settlement lists stay empty, the registry
keys evolve exactly as the arrival-order fold prescribes, and every
emitted call is an `onTxSettled` for an already-registered transaction. -/
theorem processEvent_step (api : API) (st : TrackerState) (e : Event)
    (st' : TrackerState) (tr : List OutCall)
    (h : processEvent api st e = some (st', tr)) (hnil : txMapAllNil st) :
    txMapAllNil st' ∧
    st'.txMap.map Prod.fst =
      (match e with
       | Event.newTransaction v =>
         if v ∈ st.txMap.map Prod.fst then st.txMap.map Prod.fst
         else st.txMap.map Prod.fst ++ [v]
       | _ => st.txMap.map Prod.fst) ∧
    (∀ c ∈ tr, ∃ tx s, c = OutCall.onTxSettled tx s ∧
      tx ∈ st.txMap.map Prod.fst) := by
  cases e with
  | newBlock bh parent =>
    simp only [processEvent, Option.some.injEq, Prod.ext_iff] at h
    obtain ⟨h1, h2⟩ := h
    subst h1
    subst h2
    simp only [onNewBlock]
    refine ⟨?_, ?_, ?_⟩
    · intro p hp
      exact settleScan_allNil api _ st.lastFinalized bh _ st.txMap hnil p hp
    · exact settleScan_keys api _ st.lastFinalized bh _ st.txMap
    · intro c hc
      obtain ⟨tx, s, hcs, htx⟩ :=
        settleScan_calls api _ st.lastFinalized bh _ st.txMap c hc
      exact ⟨tx, s, hcs, htx⟩
  | newTransaction v =>
    simp only [processEvent, Option.some.injEq, Prod.ext_iff] at h
    obtain ⟨h1, h2⟩ := h
    subst h1
    subst h2
    refine ⟨?_, ?_, by simp⟩
    · intro p hp
      by_cases hv : (lookupStr st.txMap v).isSome
      · simp only [onNewTx, if_pos hv] at hp
        exact hnil p hp
      · simp only [onNewTx, if_neg hv] at hp
        simp at hp
        rcases hp with hp | hp
        · exact hnil p hp
        · simp [hp]
    · by_cases hv : (lookupStr st.txMap v).isSome
      · have hmem : v ∈ st.txMap.map Prod.fst := (lookupStr_isSome st.txMap v).mp hv
        simp [onNewTx, hv, hmem]
      · have hmem : v ∉ st.txMap.map Prod.fst := by
          intro hm
          exact hv ((lookupStr_isSome st.txMap v).mpr hm)
        simp [onNewTx, hv, hmem]
  | finalized b =>
    simp only [processEvent] at h
    obtain ⟨htx, hpm, hlf⟩ := onFinalizedF_state api _ st b st' tr h
    have htr := onFinalizedF_trace_nil api _ st b st' tr hnil h
    subst htr
    refine ⟨?_, by simp [htx], by simp⟩
    intro p hp
    rw [htx] at hp
    exact hnil p hp

/-- Whole-run invariant: starting from a state with empty settlement
lists, every reachable state has empty settlement lists, the registry
keys are the arrival-order fold of the events over the initial keys,
and every emitted call is an `onTxSettled` naming a registered
transaction. -/
theorem processEventsFrom_inv (api : API) :
    ∀ (evs : List Event) (st st' : TrackerState) (tr : List OutCall),
      processEventsFrom api st evs = some (st', tr) → txMapAllNil st →
      txMapAllNil st' ∧
      st'.txMap.map Prod.fst = arrivalOrderAux (st.txMap.map Prod.fst) evs ∧
      (∀ c ∈ tr, ∃ tx s, c = OutCall.onTxSettled tx s ∧
        tx ∈ st'.txMap.map Prod.fst) := by
  intro evs
  induction evs with
  | nil =>
    intro st st' tr h hnil
    simp only [processEventsFrom, Option.some.injEq, Prod.ext_iff] at h
    obtain ⟨h1, h2⟩ := h
    subst h1
    subst h2
    exact ⟨hnil, rfl, by simp⟩
  | cons e rest ih =>
    intro st st' tr h hnil
    simp only [processEventsFrom] at h
    cases he : processEvent api st e with
    | none => rw [he] at h; simp at h
    | some r1 =>
      obtain ⟨st1, tr1⟩ := r1
      rw [he] at h
      simp only [] at h
      cases hrest : processEventsFrom api st1 rest with
      | none => rw [hrest] at h; simp at h
      | some r2 =>
        obtain ⟨st2, tr2⟩ := r2
        rw [hrest] at h
        simp only [Option.some.injEq, Prod.ext_iff] at h
        obtain ⟨h1, h2⟩ := h
        subst h1
        subst h2
        obtain ⟨hnil1, hkeys1, hcalls1⟩ := processEvent_step api st e st1 tr1 he hnil
        obtain ⟨hnil2, hkeys2, hcalls2⟩ := ih st1 st2 tr2 hrest hnil1
        have hmono : ∀ x ∈ st.txMap.map Prod.fst, x ∈ st2.txMap.map Prod.fst := by
          intro x hx
          rw [hkeys2]
          apply mem_arrivalOrderAux
          cases e with
          | newBlock b p => rw [hkeys1]; exact hx
          | finalized b => rw [hkeys1]; exact hx
          | newTransaction v =>
            rw [hkeys1]
            by_cases hv : v ∈ st.txMap.map Prod.fst
            · simpa [hv] using hx
            · simp [hv, hx]
        refine ⟨hnil2, ?_, ?_⟩
        · cases e with
          | newBlock b p =>
            simp only [arrivalOrderAux]
            rw [hkeys2, hkeys1]
          | finalized b =>
            simp only [arrivalOrderAux]
            rw [hkeys2, hkeys1]
          | newTransaction v =>
            simp only [arrivalOrderAux]
            rw [hkeys2, hkeys1]
        · intro c hc
          rcases List.mem_append.mp hc with hc1 | hc2
          · obtain ⟨tx, s, hcs, htx⟩ := hcalls1 c hc1
            exact ⟨tx, s, hcs, hmono tx htx⟩
          · exact hcalls2 c hc2

/-- The initial state has empty settlement lists. -/
theorem initState_allNil : txMapAllNil initState := by
  intro p hp
  simp [initState] at hp

/-! Claim theorems. -/

/-- Claim C1, evaluation of the code at the failing input: after
registering transaction "t" and processing newBlock "b1" (parent "g",
body ["t"]) and then newBlock "b2" (parent "b1", body ["t"]), where
"b2" is a descendant of "b1", the tracker emits a second `onTxSettled`
for "t" at "b2" on the same lineage and never records any settlement
("t"'s settlement list stays empty), contradicting the claim that a
descendant block of a recorded settlement emits nothing. -/
theorem c1_redundant_settlement_on_lineage :
    processEvents apiAllT
        [Event.newTransaction "t", Event.newBlock "b1" "g",
         Event.newBlock "b2" "b1"] =
      some (⟨[("t", [])], [("b1", "g"), ("b2", "b1")], ""⟩,
        [OutCall.onTxSettled "t" ⟨"b1", SettledKind.valid true⟩,
         OutCall.onTxSettled "t" ⟨"b2", SettledKind.valid true⟩]) ∧
    isDescendant [("b1", "g"), ("b2", "b1")] "" "b2" "b1" = true := by
  decide

/-- Claim C5, evaluation of the code at the failing input: processing
newBlock "b1" containing registered transaction "t" (no settlement
record yet) emits exactly one classified `onTxSettled`, but creates no
settlement record: "t"'s settlement list remains empty, so no later
finalization can ever find a settlement for it. -/
theorem c5_settlement_record_never_created :
    processEvents apiAllT [Event.newTransaction "t", Event.newBlock "b1" "g"] =
      some (⟨[("t", [])], [("b1", "g")], ""⟩,
        [OutCall.onTxSettled "t" ⟨"b1", SettledKind.valid true⟩]) := by
  decide

/-- Claim C2: over any event history the tracker accepts, no transaction
value appears in two distinct `onTxDone` calls.  (This holds
degenerately: because settlement records are never created — see C5 —
the source never emits `onTxDone` at all.) -/
theorem c2_done_at_most_once (api : API) (evs : List Event)
    (st : TrackerState) (tr : List OutCall) (tx : String)
    (h : processEvents api evs = some (st, tr)) :
    (tr.filter fun c =>
      match c with
      | OutCall.onTxDone t _ => t == tx
      | _ => false).length ≤ 1 := by
  obtain ⟨-, -, hcalls⟩ := processEventsFrom_inv api evs initState st tr h initState_allNil
  have hnilf : (tr.filter fun c =>
      match c with
      | OutCall.onTxDone t _ => t == tx
      | _ => false) = [] := by
    rw [List.filter_eq_nil_iff]
    intro c hc
    obtain ⟨tx', s, hcs, -⟩ := hcalls c hc
    subst hcs
    simp
  rw [hnilf]
  simp

/-- Claim C2 witness: a run with a settled (never done) transaction. -/
theorem c2_witness :
    processEvents apiAllT [Event.newTransaction "t", Event.newBlock "b1" "g"] =
      some (⟨[("t", [])], [("b1", "g")], ""⟩,
        [OutCall.onTxSettled "t" ⟨"b1", SettledKind.valid true⟩]) ∧
    ((([OutCall.onTxSettled "t" ⟨"b1", SettledKind.valid true⟩] : List OutCall).filter
      fun c =>
        match c with
        | OutCall.onTxDone t _ => t == "t"
        | _ => false).length ≤ 1) :=
  ⟨by decide,
    c2_done_at_most_once apiAllT
      [Event.newTransaction "t", Event.newBlock "b1" "g"]
      ⟨[("t", [])], [("b1", "g")], ""⟩
      [OutCall.onTxSettled "t" ⟨"b1", SettledKind.valid true⟩] "t" (by decide)⟩

/-- Claim C7: every `onTxDone` call of any accepted run is
well-classified — it carries `type: "valid"` and names a
(block, transaction) pair the provider reports valid.  (Degenerately
true: the source never emits `onTxDone`; moreover the emission site
only constructs `type: "valid"` payloads.) -/
theorem c7_done_only_valid (api : API) (evs : List Event)
    (st : TrackerState) (tr : List OutCall)
    (h : processEvents api evs = some (st, tr)) :
    tr.all (doneCallOk api) = true := by
  obtain ⟨-, -, hcalls⟩ := processEventsFrom_inv api evs initState st tr h initState_allNil
  rw [List.all_eq_true]
  intro c hc
  obtain ⟨tx', s, hcs, -⟩ := hcalls c hc
  subst hcs
  rfl

/-- Claim C7 witness. -/
theorem c7_witness :
    processEvents apiAllT [Event.newTransaction "t", Event.newBlock "b1" "g"] =
      some (⟨[("t", [])], [("b1", "g")], ""⟩,
        [OutCall.onTxSettled "t" ⟨"b1", SettledKind.valid true⟩]) ∧
    ([OutCall.onTxSettled "t" ⟨"b1", SettledKind.valid true⟩] : List OutCall).all
      (doneCallOk apiAllT) = true :=
  ⟨by decide,
    c7_done_only_valid apiAllT [Event.newTransaction "t", Event.newBlock "b1" "g"]
      ⟨[("t", [])], [("b1", "g")], ""⟩
      [OutCall.onTxSettled "t" ⟨"b1", SettledKind.valid true⟩] (by decide)⟩

/-- Claim C8, counterexample: after finalizing "b2", its strict ancestor
"b1" (a known block, recorded parent of "b2") has not been passed to
`unpin` — the emitted trace of the whole run is empty, so no block at
all was unpinned. -/
theorem c8_counterexample_no_unpin :
    processEvents apiEmpty
        [Event.newBlock "b1" "g", Event.newBlock "b2" "b1",
         Event.finalized "b2"] =
      some (⟨[], [("b1", "g"), ("b2", "b1")], "b2"⟩, []) ∧
    lookupStr [("b1", "g"), ("b2", "b1")] "b2" = some "b1" ∧
    OutCall.unpin "b1" ∉ ([] : List OutCall) := by
  decide

/-- Claim C8 as amended: the tracker never passes any block to the
provider's `unpin` — the source contains no `unpin` call, so no event
history produces an unpin notification for any block. -/
theorem c8_amended_never_unpins (api : API) (evs : List Event)
    (st : TrackerState) (tr : List OutCall) (b : String)
    (h : processEvents api evs = some (st, tr)) :
    OutCall.unpin b ∉ tr := by
  obtain ⟨-, -, hcalls⟩ := processEventsFrom_inv api evs initState st tr h initState_allNil
  intro hmem
  obtain ⟨tx', s, hcs, -⟩ := hcalls _ hmem
  exact OutCall.noConfusion hcs

/-- Claim C8 witness (for the amended statement). -/
theorem c8_amended_witness :
    processEvents apiEmpty
        [Event.newBlock "b1" "g", Event.newBlock "b2" "b1",
         Event.finalized "b2"] =
      some (⟨[], [("b1", "g"), ("b2", "b1")], "b2"⟩, []) ∧
    OutCall.unpin "b1" ∉ ([] : List OutCall) :=
  ⟨by decide,
    c8_amended_never_unpins apiEmpty
      [Event.newBlock "b1" "g", Event.newBlock "b2" "b1", Event.finalized "b2"]
      ⟨[], [("b1", "g"), ("b2", "b1")], "b2"⟩ [] "b1" (by decide)⟩

/-- Claim C10: every transaction named by any notification of any
accepted run was registered by a `newTransaction` event of that run
(applying this to each run that is a stopped earlier copy of a longer
run yields the temporal reading: registration precedes notification).
A value appearing only in block bodies is never notified. -/
theorem c10_only_registered_notified (api : API) (evs : List Event)
    (st : TrackerState) (tr : List OutCall) (tx : String)
    (h : processEvents api evs = some (st, tr))
    (hmem : tx ∈ notifiedTxs tr) : tx ∈ arrivalOrder evs := by
  obtain ⟨-, hkeys, hcalls⟩ :=
    processEventsFrom_inv api evs initState st tr h initState_allNil
  obtain ⟨c, hc, hfc⟩ := List.mem_filterMap.mp hmem
  obtain ⟨tx', s, hcs, htx'⟩ := hcalls c hc
  subst hcs
  simp [notifiedTxs] at hfc
  subst hfc
  have : st.txMap.map Prod.fst = arrivalOrder evs := by
    rw [hkeys]
    rfl
  rw [← this]
  exact htx'

/-- Claim C10 witness. -/
theorem c10_witness :
    processEvents apiAllT [Event.newTransaction "t", Event.newBlock "b1" "g"] =
      some (⟨[("t", [])], [("b1", "g")], ""⟩,
        [OutCall.onTxSettled "t" ⟨"b1", SettledKind.valid true⟩]) ∧
    "t" ∈ notifiedTxs [OutCall.onTxSettled "t" ⟨"b1", SettledKind.valid true⟩] ∧
    "t" ∈ arrivalOrder [Event.newTransaction "t", Event.newBlock "b1" "g"] :=
  ⟨by decide, by decide,
    c10_only_registered_notified apiAllT
      [Event.newTransaction "t", Event.newBlock "b1" "g"]
      ⟨[("t", [])], [("b1", "g")], ""⟩
      [OutCall.onTxSettled "t" ⟨"b1", SettledKind.valid true⟩] "t"
      (by decide) (by decide)⟩

/-- Claim C6: the notifications emitted while processing any single
event, from any state the tracker reached from the initial state, name
transactions in a relative order that is a sublist of the first-arrival
order of the `newTransaction` events — i.e. registry insertion order,
not block-body order.  (`onTxSettled` calls follow the `txMap` scan
order; `onTxDone` calls are degenerate since none are ever emitted.) -/
theorem c6_notifications_in_arrival_order (api : API) (evs : List Event)
    (st : TrackerState) (tr : List OutCall) (e : Event)
    (st' : TrackerState) (tr' : List OutCall)
    (h : processEvents api evs = some (st, tr))
    (h2 : processEvent api st e = some (st', tr')) :
    List.Sublist (notifiedTxs tr') (arrivalOrder evs) := by
  obtain ⟨hnil, hkeys, -⟩ :=
    processEventsFrom_inv api evs initState st tr h initState_allNil
  have hk : st.txMap.map Prod.fst = arrivalOrder evs := by
    rw [hkeys]
    rfl
  cases e with
  | newBlock bh parent =>
    simp only [processEvent, Option.some.injEq, Prod.ext_iff] at h2
    obtain ⟨-, h2⟩ := h2
    subst h2
    rw [← hk]
    exact settleScan_notified api _ st.lastFinalized bh _ st.txMap
  | newTransaction v =>
    simp only [processEvent, Option.some.injEq, Prod.ext_iff] at h2
    obtain ⟨-, h2⟩ := h2
    subst h2
    simp [notifiedTxs]
  | finalized b =>
    simp only [processEvent] at h2
    have := onFinalizedF_trace_nil api _ st b st' tr' hnil h2
    subst this
    simp [notifiedTxs]

/-- Claim C6 witness: two transactions registered as t1 then t2, then a
block whose body lists them in the opposite order; the settled calls
still come out t1 before t2. -/
theorem c6_witness :
    processEvents ⟨fun _ => ["t2", "t1"], fun _ _ => true, fun _ _ => true⟩
        [Event.newTransaction "t1", Event.newTransaction "t2"] =
      some (⟨[("t1", []), ("t2", [])], [], ""⟩, []) ∧
    processEvent ⟨fun _ => ["t2", "t1"], fun _ _ => true, fun _ _ => true⟩
        ⟨[("t1", []), ("t2", [])], [], ""⟩ (Event.newBlock "b1" "g") =
      some (⟨[("t1", []), ("t2", [])], [("b1", "g")], ""⟩,
        [OutCall.onTxSettled "t1" ⟨"b1", SettledKind.valid true⟩,
         OutCall.onTxSettled "t2" ⟨"b1", SettledKind.valid true⟩]) ∧
    List.Sublist
      (notifiedTxs [OutCall.onTxSettled "t1" ⟨"b1", SettledKind.valid true⟩,
        OutCall.onTxSettled "t2" ⟨"b1", SettledKind.valid true⟩])
      (arrivalOrder [Event.newTransaction "t1", Event.newTransaction "t2"]) :=
  ⟨by decide, by decide,
    c6_notifications_in_arrival_order
      ⟨fun _ => ["t2", "t1"], fun _ _ => true, fun _ _ => true⟩
      [Event.newTransaction "t1", Event.newTransaction "t2"]
      ⟨[("t1", []), ("t2", [])], [], ""⟩ [] (Event.newBlock "b1" "g")
      ⟨[("t1", []), ("t2", [])], [("b1", "g")], ""⟩
      [OutCall.onTxSettled "t1" ⟨"b1", SettledKind.valid true⟩,
       OutCall.onTxSettled "t2" ⟨"b1", SettledKind.valid true⟩]
      (by decide) (by decide)⟩

/-- Claim C9, counterexample: after the run
newBlock(b1 ← g), newBlock(c1 ← g), finalized(b1), the cursor is "b1";
the further event finalized(c1) moves it to "c1", which is neither
"b1" nor a recorded descendant of "b1" ("c1"'s recorded ancestor chain
is just ["g"]) — the cursor jumps to an unrelated fork. -/
theorem c9_counterexample_cursor_moves_to_fork :
    processEvents apiEmpty
        [Event.newBlock "b1" "g", Event.newBlock "c1" "g",
         Event.finalized "b1"] =
      some (⟨[], [("b1", "g"), ("c1", "g")], "b1"⟩, []) ∧
    processEvents apiEmpty
        [Event.newBlock "b1" "g", Event.newBlock "c1" "g",
         Event.finalized "b1", Event.finalized "c1"] =
      some (⟨[], [("b1", "g"), ("c1", "g")], "c1"⟩, []) ∧
    ("c1" : String) ≠ "b1" ∧
    parentChain [("b1", "g"), ("c1", "g")] "c1" = ["g"] ∧
    ("b1" : String) ∉ parentChain [("b1", "g"), ("c1", "g")] "c1" := by
  decide

/-- Claim C9 as amended: the cursor is not monotone — processing a
finalized(B) event always ends with `lastFinalized = B`, whatever B's
relation to the previous cursor (so it can regress to an ancestor or
jump to an unrelated fork), and the other two event kinds leave the
cursor unchanged. -/
theorem c9_amended_cursor_follows_finalized (api : API) (st : TrackerState)
    (e : Event) (st' : TrackerState) (tr : List OutCall)
    (h : processEvent api st e = some (st', tr)) :
    st'.lastFinalized =
      match e with
      | Event.finalized b => b
      | _ => st.lastFinalized := by
  cases e with
  | newBlock bh parent =>
    simp only [processEvent, Option.some.injEq, Prod.ext_iff] at h
    obtain ⟨h1, -⟩ := h
    subst h1
    simp [onNewBlock]
  | newTransaction v =>
    simp only [processEvent, Option.some.injEq, Prod.ext_iff] at h
    obtain ⟨h1, -⟩ := h
    subst h1
    simp only [onNewTx]
    split
    · rfl
    · rfl
  | finalized b =>
    simp only [processEvent] at h
    exact (onFinalizedF_state api _ st b st' tr h).2.2

/-- Claim C9 witness (for the amended statement). -/
theorem c9_amended_witness :
    processEvent apiEmpty ⟨[], [("b1", "g"), ("c1", "g")], "b1"⟩
        (Event.finalized "c1") =
      some (⟨[], [("b1", "g"), ("c1", "g")], "c1"⟩, []) ∧
    (⟨[], [("b1", "g"), ("c1", "g")], "c1"⟩ : TrackerState).lastFinalized = "c1" :=
  ⟨by decide,
    c9_amended_cursor_follows_finalized apiEmpty
      ⟨[], [("b1", "g"), ("c1", "g")], "b1"⟩ (Event.finalized "c1")
      ⟨[], [("b1", "g"), ("c1", "g")], "c1"⟩ [] (by decide)⟩

/-- Claim C4, counterexample: with cursor at "b2" (after finalizing it),
the stale event finalized(b1) — "b1" being the recorded parent, hence
an ancestor, of "b2" — is not a no-op: it resets `lastFinalized` to
"b1". -/
theorem c4_counterexample_stale_not_noop :
    processEvents apiEmpty
        [Event.newBlock "b1" "g", Event.newBlock "b2" "b1",
         Event.finalized "b2"] =
      some (⟨[], [("b1", "g"), ("b2", "b1")], "b2"⟩, []) ∧
    lookupStr [("b1", "g"), ("b2", "b1")] "b2" = some "b1" ∧
    processEvents apiEmpty
        [Event.newBlock "b1" "g", Event.newBlock "b2" "b1",
         Event.finalized "b2", Event.finalized "b1"] =
      some (⟨[], [("b1", "g"), ("b2", "b1")], "b1"⟩, []) ∧
    ("b1" : String) ≠ "b2" := by
  decide

/-- Claim C4 as amended: a finalized event (stale or not) emits no
notifications and leaves `txMap` and `parentMap` unchanged; an event for
a block equal to the current `lastFinalized` leaves the whole state
unchanged; but an event for a strict ancestor resets `lastFinalized` to
that ancestor instead of being a no-op. -/
theorem c4_amended_stale_finalized (api : API) (evs : List Event)
    (st : TrackerState) (tr : List OutCall) (b : String)
    (st' : TrackerState) (tr' : List OutCall)
    (h : processEvents api evs = some (st, tr))
    (h2 : processEvent api st (Event.finalized b) = some (st', tr')) :
    tr' = [] ∧ st'.txMap = st.txMap ∧ st'.parentMap = st.parentMap ∧
      st'.lastFinalized = b ∧ (b = st.lastFinalized → st' = st) := by
  obtain ⟨hnil, -, -⟩ :=
    processEventsFrom_inv api evs initState st tr h initState_allNil
  simp only [processEvent] at h2
  obtain ⟨htx, hpm, hlf⟩ := onFinalizedF_state api _ st b st' tr' h2
  have htr := onFinalizedF_trace_nil api _ st b st' tr' hnil h2
  refine ⟨htr, htx, hpm, hlf, ?_⟩
  intro hb
  cases st' with
  | mk txm pm lf =>
    simp only at htx hpm hlf
    subst htx
    subst hpm
    subst hlf
    rw [hb]

/-- Claim C4 witness (for the amended statement): a duplicate finalized
event for the current cursor is a genuine no-op. -/
theorem c4_amended_witness :
    processEvents apiEmpty [Event.finalized "x"] =
      some (⟨[], [], "x"⟩, []) ∧
    processEvent apiEmpty ⟨[], [], "x"⟩ (Event.finalized "x") =
      some (⟨[], [], "x"⟩, []) ∧
    (("x" : String) = ("x" : String) →
      (⟨[], [], "x"⟩ : TrackerState) = ⟨[], [], "x"⟩) :=
  ⟨by decide, by decide,
    (c4_amended_stale_finalized apiEmpty [Event.finalized "x"]
      ⟨[], [], "x"⟩ [] "x" ⟨[], [], "x"⟩ [] (by decide) (by decide)).2.2.2.2⟩

/-- Claim C3: finality replay.  From any tracker state whose recorded
parent links form the chain lastFinalized ← f1 ← f2 ← f3, with f1 and
f2 strictly above the cursor and never individually signalled, the
single event finalized(f3) yields exactly the same final state and the
same output calls, in the same order (each intermediate ancestor
processed oldest first), as the sequence finalized(f1), finalized(f2),
finalized(f3). -/
theorem c3_finality_replay (api : API) (st : TrackerState) (f1 f2 f3 : String)
    (h3 : lookupStr st.parentMap f3 = some f2)
    (h2 : lookupStr st.parentMap f2 = some f1)
    (h1 : lookupStr st.parentMap f1 = some st.lastFinalized)
    (hne : f3 ≠ f2) (hf2a : f2 ≠ "") (hf2b : f2 ≠ st.lastFinalized)
    (hf1a : f1 ≠ "") (hf1b : f1 ≠ st.lastFinalized) :
    processEventsFrom api st [Event.finalized f3] =
      processEventsFrom api st
        [Event.finalized f1, Event.finalized f2, Event.finalized f3] := by
  obtain ⟨txm, pm, lf⟩ := st
  simp only at h3 h2 h1 hf2b hf1b
  have hm3 : f3 ∈ pm.map Prod.fst := (lookupStr_isSome pm f3).mp (by rw [h3]; rfl)
  have hm2 : f2 ∈ pm.map Prod.fst := (lookupStr_isSome pm f2).mp (by rw [h2]; rfl)
  have hlen : 2 ≤ pm.length := by
    have htwo := two_le_length_of_mem_ne hm3 hm2 hne
    simpa using htwo
  obtain ⟨k, hk⟩ : ∃ k, pm.length = k + 2 := ⟨pm.length - 2, by omega⟩
  have e21 : k + 2 = k + 1 + 1 := rfl
  have hstop1 : ¬(lf ≠ "" ∧ lf ≠ lf) := fun hcc => hcc.2 rfl
  have hstopA : ¬(f1 ≠ "" ∧ f1 ≠ f1) := fun hcc => hcc.2 rfl
  have hstopB : ¬(f2 ≠ "" ∧ f2 ≠ f2) := fun hcc => hcc.2 rfl
  have hL : onFinalizedF api (pm.length + 1) (TrackerState.mk txm pm lf) f3 =
      some (TrackerState.mk txm pm f3,
        (doneEmits api f1 (api.getBody f1) txm ++
         doneEmits api f2 (api.getBody f2) txm) ++
         doneEmits api f3 (api.getBody f3) txm) := by
    rw [hk, onFinalized_go api (k + 2) (TrackerState.mk txm pm lf) f3 f2 h3 hf2a hf2b,
        e21, onFinalized_go api (k + 1) (TrackerState.mk txm pm lf) f2 f1 h2 hf1a hf1b,
        onFinalized_stop api k (TrackerState.mk txm pm lf) f1 lf h1 hstop1]
    simp [finalizeStep]
  have hR1 : onFinalizedF api (pm.length + 1) (TrackerState.mk txm pm lf) f1 =
      some (TrackerState.mk txm pm f1, doneEmits api f1 (api.getBody f1) txm) := by
    rw [hk, onFinalized_stop api (k + 2) (TrackerState.mk txm pm lf) f1 lf h1 hstop1]
  have hR2 : onFinalizedF api (pm.length + 1) (TrackerState.mk txm pm f1) f2 =
      some (TrackerState.mk txm pm f2, doneEmits api f2 (api.getBody f2) txm) := by
    rw [hk, onFinalized_stop api (k + 2) (TrackerState.mk txm pm f1) f2 f1 h2 hstopA]
  have hR3 : onFinalizedF api (pm.length + 1) (TrackerState.mk txm pm f2) f3 =
      some (TrackerState.mk txm pm f3, doneEmits api f3 (api.getBody f3) txm) := by
    rw [hk, onFinalized_stop api (k + 2) (TrackerState.mk txm pm f2) f3 f2 h3 hstopB]
  simp only [processEventsFrom, processEvent, hL, hR1, hR2, hR3]
  simp [List.append_assoc]

/-- Claim C3 witness: concrete instantiation on the replay state with a
non-empty settlement list, where both runs actually emit three
`onTxDone` calls in the same order. -/
theorem c3_witness :
    (lookupStr stReplay.parentMap "f3" = some "f2" ∧
     lookupStr stReplay.parentMap "f2" = some "f1" ∧
     lookupStr stReplay.parentMap "f1" = some stReplay.lastFinalized ∧
     ("f3" : String) ≠ "f2" ∧ ("f2" : String) ≠ "" ∧
     ("f2" : String) ≠ stReplay.lastFinalized ∧
     ("f1" : String) ≠ "" ∧ ("f1" : String) ≠ stReplay.lastFinalized) ∧
    processEventsFrom apiAllT stReplay [Event.finalized "f3"] =
      processEventsFrom apiAllT stReplay
        [Event.finalized "f1", Event.finalized "f2", Event.finalized "f3"] :=
  ⟨by decide,
    c3_finality_replay apiAllT stReplay "f1" "f2" "f3" (by decide) (by decide)
      (by decide) (by decide) (by decide) (by decide) (by decide) (by decide)⟩

end TxTracker

